import Mathlib

set_option maxRecDepth 4000

/-!
Verification of the MAK3R-HUB credential vault (`CredentialManager`).

The definitions below are a shallow embedding of the JavaScript class
`CredentialManager`: JS strings are modelled as lists of UTF-8 byte values
(`List Nat`, each `< 256`), JS objects as insertion-ordered association
lists, the `Map` credential cache as an association list whose values may
be `undefined` (`Option Record`), and the mutable object state as an
explicit `VaultState` threaded through each operation.  Fallible methods
return `Except String` paired with the post-call state, mirroring the fact
that a thrown JS exception does not roll back mutations already performed.
-/

/-- Bytes are naturals below 256. -/
def isBytes (l : List Nat) : Prop := ∀ x ∈ l, x < 256

instance (l : List Nat) : Decidable (isBytes l) := by
  unfold isBytes; infer_instance

/-- ASCII byte values of a Lean string literal (used for concrete JS strings). -/
def asciiB (s : String) : List Nat := s.data.map Char.toNat

/-- A JS value stored in a credential record field: a string or a boolean. -/
inductive FieldVal where
  | vStr : List Nat → FieldVal
  | vBool : Bool → FieldVal
deriving DecidableEq

/-- A JS object holding one service's credentials: insertion-ordered fields. -/
abbrev Record : Type := List (String × FieldVal)

/-- JS truthiness of `obj[field]`: `undefined` and `""` are falsy. -/
def truthy : Option FieldVal → Bool
  | none => false
  | some (.vStr s) => !s.isEmpty
  | some (.vBool b) => b

/-- JS property read: value of the first (only) entry with the given key. -/
def objGet : Record → String → Option FieldVal
  | [], _ => none
  | (g, v) :: rest, f => if g = f then some v else objGet rest f

/-- JS property write: replace in place if the key exists, else append. -/
def objSet : Record → String → FieldVal → Record
  | [], f, v => [(f, v)]
  | (g, w) :: rest, f, v => if g = f then (f, v) :: rest else (g, w) :: objSet rest f v

/-- JS `delete obj[field]`: drop the entry with the given key. -/
def objDelete : Record → String → Record
  | [], _ => []
  | (g, w) :: rest, f => if g = f then rest else (g, w) :: objDelete rest f

/-- Keys of a record, in insertion order. -/
def recordKeys (r : Record) : List String := r.map Prod.fst

/-- `Map` lookup distinguishing a missing key from a stored `undefined`. -/
def mapLookup : List (String × Option Record) → String → Option (Option Record)
  | [], _ => none
  | (g, v) :: rest, k => if g = k then some v else mapLookup rest k

/-- JS `Map.get`: `undefined` both for a missing key and a stored `undefined`. -/
def mapGetJS (c : List (String × Option Record)) (k : String) : Option Record :=
  match mapLookup c k with
  | none => none
  | some v => v

/-- JS `Map.has`. -/
def mapHas (c : List (String × Option Record)) (k : String) : Bool :=
  (mapLookup c k).isSome

/-- JS `Map.set`: replace in place if present, else append. -/
def mapSet : List (String × Option Record) → String → Option Record →
    List (String × Option Record)
  | [], k, v => [(k, v)]
  | (g, w) :: rest, k, v => if g = k then (k, v) :: rest else (g, w) :: mapSet rest k v

/-- JS `Map.delete`. -/
def mapDelete : List (String × Option Record) → String → List (String × Option Record)
  | [], _ => []
  | (g, w) :: rest, k => if g = k then rest else (g, w) :: mapDelete rest k

/-- JS `Map.keys()`, in insertion order. -/
def mapKeys (c : List (String × Option Record)) : List String := c.map Prod.fst

/-! ### String helpers mirroring the JS string methods used by the source -/

/-- JS `String.prototype.endsWith`. -/
def jsEndsWith (s suffix : String) : Bool := suffix.data.isSuffixOf s.data

/-- Replace the first occurrence of `pat` by `repl` in a character list
(JS `String.prototype.replace` with string arguments). -/
def replaceFirstAux (pat repl : List Char) : List Char → List Char
  | [] => []
  | c :: rest =>
    if pat.isPrefixOf (c :: rest) then repl ++ (c :: rest).drop pat.length
    else c :: replaceFirstAux pat repl rest

/-- JS `s.replace(pat, repl)` for string `pat`: first occurrence only. -/
def jsReplaceFirst (s pat repl : String) : String :=
  ⟨replaceFirstAux pat.data repl.data s.data⟩

/-- Substring scan: does `pat` occur contiguously in the list? -/
def isInfixAux (pat : List Char) : List Char → Bool
  | [] => pat.isEmpty
  | c :: rest => pat.isPrefixOf (c :: rest) || isInfixAux pat rest

/-- JS `String.prototype.includes`. -/
def jsIncludes (s sub : String) : Bool := isInfixAux sub.data s.data

/-- Fueled `String.prototype.split` worker (fuel bounds recursion depth). -/
def splitLoop (sep : List Char) : Nat → List Char → List (List Char)
  | _, [] => [[]]
  | 0, l => [l]
  | fuel + 1, c :: rest =>
    if sep.isPrefixOf (c :: rest) ∧ sep ≠ [] then
      [] :: splitLoop sep fuel ((c :: rest).drop sep.length)
    else
      match splitLoop sep fuel rest with
      | [] => [[c]]
      | h :: t => (c :: h) :: t

/-- JS `s.split(sep)` for a non-empty string separator. -/
def jsSplit (s sep : String) : List String :=
  (splitLoop sep.data s.data.length s.data).map (fun l => ⟨l⟩)

/-- Leading-digits integer parse with optional sign: JS `parseInt(s, 10)`,
`none` standing for `NaN`. -/
def parseDigits : List Char → Option Nat → Option Nat
  | [], acc => acc
  | c :: rest, acc =>
    if c.toNat < 48 ∨ 57 < c.toNat then acc
    else parseDigits rest (some ((acc.getD 0) * 10 + (c.toNat - 48)))

/-- JS `parseInt(s, 10)` for the strings this program feeds it. -/
def jsParseInt (s : String) : Option Int :=
  match s.data with
  | '-' :: rest => (parseDigits rest none).map (fun n => -(n : Int))
  | '+' :: rest => (parseDigits rest none).map (fun n => (n : Int))
  | l => (parseDigits l none).map (fun n => (n : Int))

/-! ### The XOR stream cipher (`encrypt` / `decrypt`) -/

/-- Keystream byte: `key[i % key.length]` (JS yields `b ^ undefined = b`
for an empty key, matching `getD 0`). -/
def keyAt (key : List Nat) (i : Nat) : Nat := key.getD (i % key.length) 0

/-- XOR a byte list against the cyclically repeated key, starting at index `i`. -/
def xorStream (key : List Nat) : Nat → List Nat → List Nat
  | _, [] => []
  | i, b :: rest => (b ^^^ keyAt key i) :: xorStream key (i + 1) rest

/-- `CredentialManager.encrypt`: byte-wise XOR of the data against the master key. -/
def encrypt (masterKey data : List Nat) : List Nat := xorStream masterKey 0 data

/-- `CredentialManager.decrypt`: identical XOR stream (self-inverse). -/
def decrypt (masterKey encryptedData : List Nat) : List Nat := xorStream masterKey 0 encryptedData

/-! ### Master-key wrapping (`encryptMasterKey` / `decryptMasterKey`) -/

/-- `CredentialManager.encryptMasterKey`: salt ∥ (key XOR (machineId[0..16) ∥ salt[0..16))). -/
def encryptMasterKey (machineId salt key : List Nat) : List Nat :=
  let combinedKey := machineId.take 16 ++ salt.take 16
  salt ++ xorStream combinedKey 0 key

/-- `CredentialManager.decryptMasterKey`: split off the 32-byte salt and XOR back. -/
def decryptMasterKey (machineId encryptedData : List Nat) : List Nat :=
  let salt := encryptedData.take 32
  let encrypted := encryptedData.drop 32
  let combinedKey := machineId.take 16 ++ salt.take 16
  xorStream combinedKey 0 encrypted

/-! ### Base64 (Node `Buffer.toString('base64')` / `Buffer.from(_, 'base64')`) -/

/-- Standard base64 alphabet, sextet to ASCII code. -/
def b64CharEncode (s : Nat) : Nat :=
  if s < 26 then 65 + s
  else if s < 52 then 97 + (s - 26)
  else if s < 62 then 48 + (s - 52)
  else if s = 62 then 43
  else 47

/-- ASCII code back to sextet; `none` for non-alphabet bytes (Node ignores them). -/
def b64CharDecode (c : Nat) : Option Nat :=
  if 65 ≤ c ∧ c ≤ 90 then some (c - 65)
  else if 97 ≤ c ∧ c ≤ 122 then some (c - 97 + 26)
  else if 48 ≤ c ∧ c ≤ 57 then some (c - 48 + 52)
  else if c = 43 then some 62
  else if c = 47 then some 63
  else none

/-- Base64-encode a byte list, with `=` padding. -/
def b64encode : List Nat → List Nat
  | b0 :: b1 :: b2 :: rest =>
    b64CharEncode (b0 / 4) :: b64CharEncode ((b0 % 4) * 16 + b1 / 16) ::
      b64CharEncode ((b1 % 16) * 4 + b2 / 64) :: b64CharEncode (b2 % 64) :: b64encode rest
  | [b0, b1] =>
    [b64CharEncode (b0 / 4), b64CharEncode ((b0 % 4) * 16 + b1 / 16),
      b64CharEncode ((b1 % 16) * 4), 61]
  | [b0] => [b64CharEncode (b0 / 4), b64CharEncode ((b0 % 4) * 16), 61, 61]
  | [] => []

/-- Recombine sextets into bytes, 4 at a time, with trailing partial groups. -/
def sextDecode : List Nat → List Nat
  | s0 :: s1 :: s2 :: s3 :: rest =>
    (s0 * 4 + s1 / 16) :: ((s1 % 16) * 16 + s2 / 4) :: ((s2 % 4) * 64 + s3) :: sextDecode rest
  | [s0, s1, s2] => [s0 * 4 + s1 / 16, (s1 % 16) * 16 + s2 / 4]
  | [s0, s1] => [s0 * 4 + s1 / 16]
  | _ => []

/-- Node's lenient base64 decode: ignore non-alphabet bytes (including `=`),
then regroup sextets into bytes. -/
def b64decodeJS (l : List Nat) : List Nat := sextDecode (l.filterMap b64CharDecode)

/-! ### Schema registry (`validateCredentials` tables) -/

structure ValidationRule where
  required : List String
  optional : List String

/-- The `validationRules` table of `validateCredentials`. -/
def validationRules (service : String) : Option ValidationRule :=
  if service = "stripe" then some ⟨["api_key"], ["webhook_secret", "environment"]⟩
  else if service = "openai" then some ⟨["api_key"], ["organization", "model_preference"]⟩
  else if service = "github" then some ⟨["token"], ["username", "email"]⟩
  else if service = "aws" then
    some ⟨["access_key_id", "secret_access_key"], ["region", "role_arn", "session_token"]⟩
  else if service = "vercel" then some ⟨["token"], ["team_id", "project_id"]⟩
  else if service = "netlify" then some ⟨["token"], ["site_id"]⟩
  else if service = "digitalocean" then some ⟨["token"], ["spaces_key", "spaces_secret"]⟩
  else none

/-- The `sensitiveFields` table of `encryptSensitiveFields` (`[]` for unknown
services, matching `sensitiveFields[service] || []`). -/
def sensitiveFields (service : String) : List String :=
  if service = "stripe" then ["api_key", "webhook_secret"]
  else if service = "openai" then ["api_key"]
  else if service = "github" then ["token"]
  else if service = "aws" then ["secret_access_key", "session_token"]
  else if service = "vercel" then ["token"]
  else if service = "netlify" then ["token"]
  else if service = "digitalocean" then ["token", "spaces_secret"]
  else []

/-- Error text of the missing-required-field throw in `validateCredentials`. -/
def missingMsg (f service : String) : String :=
  "Missing required field \x27" ++ f ++ "\x27 for " ++ service

/-- The required-fields loop of `validateCredentials`: throw on the first
required field that is missing or falsy. -/
def checkRequired (service : String) (credentials : Record) : List String → Except String Unit
  | [] => .ok ()
  | f :: rest =>
    if truthy (objGet credentials f) then checkRequired service credentials rest
    else .error (missingMsg f service)

/-- `CredentialManager.validateCredentials`: unknown services pass with a
warning; known services must have every required field present and truthy
(unknown fields only warn). -/
def validateCredentials (service : String) (credentials : Record) : Except String Unit :=
  match validationRules service with
  | none => .ok ()
  | some rules => checkRequired service credentials rules.required

/-! ### Field sealing (`encryptSensitiveFields` / `decryptSensitiveFields`) -/

/-- Loop body of `encryptSensitiveFields`: for each sensitive field present
and truthy, replace the value by base64 ciphertext and append the
`<field>_encrypted = true` marker.  A `null` master key or a non-string
value makes the inner `this.encrypt` call throw. -/
def esfLoop (mk : Option (List Nat)) : List String → Record → Except String Record
  | [], result => .ok result
  | f :: rest, result =>
    if truthy (objGet result f) then
      match objGet result f, mk with
      | some (.vStr s), some k =>
        esfLoop mk rest
          (objSet (objSet result f (.vStr (b64encode (encrypt k s))))
            (f ++ "_encrypted") (.vBool true))
      | some (.vStr _), none => .error "Master key not initialized"
      | _, _ => .error "The data argument must be of type string"
    else esfLoop mk rest result

/-- `CredentialManager.encryptSensitiveFields`. -/
def encryptSensitiveFields (mk : Option (List Nat)) (service : String)
    (credentials : Record) : Except String Record :=
  esfLoop mk (sensitiveFields service) credentials

/-- Body of the `decryptSensitiveFields` loop for one marker entry: decode
and decrypt the sibling field when it is truthy (a decryption failure is
caught and leaves the ciphertext in place), then delete the marker. -/
def dsfStep (mk : Option (List Nat)) (result : Record) (field : String) : Record :=
  let actualField := jsReplaceFirst field "_encrypted" ""
  let result1 :=
    if truthy (objGet result actualField) then
      match objGet result actualField, mk with
      | some (.vStr b64v), some k =>
        objSet result actualField (.vStr (decrypt k (b64decodeJS b64v)))
      | _, _ => result
    else result
  objDelete result1 field

/-- Loop of `decryptSensitiveFields` over the snapshot of the record's
entries: each `<field>_encrypted = true` marker triggers `dsfStep`. -/
def dsfLoop (mk : Option (List Nat)) : List (String × FieldVal) → Record → Record
  | [], result => result
  | (field, value) :: rest, result =>
    if jsEndsWith field "_encrypted" = true ∧ value = .vBool true then
      dsfLoop mk rest (dsfStep mk result field)
    else dsfLoop mk rest result

/-- `CredentialManager.decryptSensitiveFields` (operates on a copy of the
cached record; the `service` argument is only used in warnings). -/
def decryptSensitiveFields (mk : Option (List Nat)) (_service : String)
    (credentials : Record) : Record :=
  dsfLoop mk credentials credentials

/-! ### JSON serialization (`JSON.stringify(credentials, null, 2)`) -/

/-- Hex digit as used by `JSON.stringify` control-character escapes. -/
def hexDigit (n : Nat) : Nat := if n < 10 then 48 + n else 87 + n

/-- JSON escaping of one byte of a string value. -/
def jsonEscapeByte (b : Nat) : List Nat :=
  if b = 34 then [92, 34]
  else if b = 92 then [92, 92]
  else if b = 8 then [92, 98]
  else if b = 9 then [92, 116]
  else if b = 10 then [92, 110]
  else if b = 12 then [92, 102]
  else if b = 13 then [92, 114]
  else if b < 32 then [92, 117, 48, 48, hexDigit (b / 16), hexDigit (b % 16)]
  else [b]

/-- A JSON string literal: quote, escape bytes, quote. -/
def jsonString (s : List Nat) : List Nat := 34 :: (s.map jsonEscapeByte).flatten ++ [34]

/-- JSON form of a field value. -/
def fieldValJson : FieldVal → List Nat
  | .vStr s => jsonString s
  | .vBool b => if b then asciiB "true" else asciiB "false"

/-- Join byte-list chunks with a separator. -/
def sepJoin (sep : List Nat) : List (List Nat) → List Nat
  | [] => []
  | [x] => x
  | x :: y :: rest => x ++ sep ++ sepJoin sep (y :: rest)

/-- One service's record as pretty-printed JSON at nesting depth 1
(inner indent 4, closing brace indent 2). -/
def recordJson (r : Record) : List Nat :=
  if r.isEmpty then asciiB "\x7b\x7d"
  else
    asciiB "\x7b\n" ++
      sepJoin (asciiB ",\n")
        (r.map (fun p =>
          asciiB "    " ++ jsonString (asciiB p.1) ++ asciiB ": " ++ fieldValJson p.2)) ++
      asciiB "\n  \x7d"

/-- `JSON.stringify(credentials, null, 2)` over the cache contents;
entries whose value is `undefined` are dropped by `JSON.stringify`. -/
def jsonStringify (cache : List (String × Option Record)) : List Nat :=
  let entries := cache.filterMap (fun p => p.2.map (fun r => (p.1, r)))
  if entries.isEmpty then asciiB "\x7b\x7d"
  else
    asciiB "\x7b\n" ++
      sepJoin (asciiB ",\n")
        (entries.map (fun p =>
          asciiB "  " ++ jsonString (asciiB p.1) ++ asciiB ": " ++ recordJson p.2)) ++
      asciiB "\n\x7d"

/-! ### The vault state and the public operations -/

/-- The mutable state of a `CredentialManager` instance: the in-memory
`Map` cache, the master key (`null`able), and the bytes of the encrypted
credentials file on disk (`none` when the file does not exist). -/
structure VaultState where
  cache : List (String × Option Record)
  masterKey : Option (List Nat)
  disk : Option (List Nat)
deriving DecidableEq

/-- `CredentialManager.saveCredentials`: serialize the cache, encrypt the
whole document with the master key, write it to disk.  Throws when the
master key is not initialized. -/
def saveCredentials (st : VaultState) : Except String VaultState :=
  match st.masterKey with
  | none => .error "Failed to save credentials: Master key not initialized"
  | some k => .ok { st with disk := some (encrypt k (jsonStringify st.cache)) }

/-- `CredentialManager.setCredentials`: validate, seal sensitive fields,
store in the cache, persist.  The returned state reflects mutations
performed before any throw. -/
def setCredentials (st : VaultState) (service : String) (credentials : Record) :
    Except String Unit × VaultState :=
  if service = "" then
    (.error ("Failed to set credentials for " ++ service ++
      ": Service name must be a non-empty string"), st)
  else
    match validateCredentials service credentials with
    | .error e => (.error ("Failed to set credentials for " ++ service ++ ": " ++ e), st)
    | .ok _ =>
      match encryptSensitiveFields st.masterKey service credentials with
      | .error e => (.error ("Failed to set credentials for " ++ service ++ ": " ++ e), st)
      | .ok enc =>
        let st1 : VaultState := { st with cache := mapSet st.cache service (some enc) }
        match saveCredentials st1 with
        | .error e => (.error ("Failed to set credentials for " ++ service ++ ": " ++ e), st1)
        | .ok st2 => (.ok (), st2)

/-- `CredentialManager.getCredentials`: look up the cached (sealed) record
and return its decrypted copy; throws when the service is absent.  The
cache itself is never written. -/
def getCredentials (st : VaultState) (service : String) :
    Except String Record × VaultState :=
  if mapHas st.cache service then
    (.ok (decryptSensitiveFields st.masterKey service ((mapGetJS st.cache service).getD [])), st)
  else
    (.error ("Failed to get credentials for " ++ service ++
      ": No credentials found for service: " ++ service), st)

/-- Insert a string into a sorted list (ordering of JS `Array.sort()`). -/
def insertSorted (s : String) : List String → List String
  | [] => [s]
  | t :: rest => if s ≤ t then s :: t :: rest else t :: insertSorted s rest

/-- Lexicographic sort of the service ids. -/
def sortStrings (l : List String) : List String := l.foldr insertSorted []

/-- `CredentialManager.listServices`: sorted cache keys. -/
def listServices (st : VaultState) : List String := sortStrings (mapKeys st.cache)

/-- `CredentialManager.rotateCredentials`: snapshot the current record under
`<service>_backup_<now>` (even when it is `undefined`), then run
`setCredentials` with the new record. -/
def rotateCredentials (st : VaultState) (service : String) (newCredentials : Record)
    (now : Nat) : Except String Unit × VaultState :=
  let backupKey := service ++ "_backup_" ++ toString now
  let st1 : VaultState := { st with cache := mapSet st.cache backupKey (mapGetJS st.cache service) }
  match setCredentials st1 service newCredentials with
  | (.error e, st2) => (.error ("Failed to rotate credentials for " ++ service ++ ": " ++ e), st2)
  | (.ok _, st2) => (.ok (), st2)

/-- The backup-retention loop body of `cleanup`: delete entries whose key
contains `_backup_` with a parsed timestamp below the cutoff. -/
def pruneBackups (c : List (String × Option Record)) (cutoff : Int) :
    List (String × Option Record) :=
  c.foldl (fun acc p =>
    if jsIncludes p.1 "_backup_" then
      match jsParseInt ((jsSplit p.1 "_backup_").getD 1 "") with
      | some t => if t < cutoff then mapDelete acc p.1 else acc
      | none => acc
    else acc) c

/-- `CredentialManager.cleanup`: clear the cache and master key, run the
backup-retention loop (over the already-cleared cache), then attempt to
persist; a save failure is logged and swallowed. -/
def cleanup (st : VaultState) (now : Nat) : VaultState :=
  let st1 : VaultState := { st with cache := [], masterKey := none }
  let cutoffTime : Int := (now : Int) - 30 * 24 * 60 * 60 * 1000
  let st2 : VaultState := { st1 with cache := pruneBackups st1.cache cutoffTime }
  match saveCredentials st2 with
  | .error _ => st2
  | .ok st3 => st3

/-! ### Derived notions used by the claims -/

/-- A service id with a known schema. -/
def knownService (service : String) : Prop := (validationRules service).isSome = true

instance (service : String) : Decidable (knownService service) := by
  unfold knownService; infer_instance

/-- required ∪ optional for a known service, `[]` otherwise. -/
def allowedFields (service : String) : List String :=
  match validationRules service with
  | some ru => ru.required ++ ru.optional
  | none => []

/-- A field value that is a byte string. -/
def valBytes : FieldVal → Prop
  | .vStr s => isBytes s
  | .vBool _ => False

instance : (v : FieldVal) → Decidable (valBytes v)
  | .vStr s => inferInstanceAs (Decidable (isBytes s))
  | .vBool _ => inferInstanceAs (Decidable False)

/-- A record of a known service's schema: every field is an allowed field,
keys are distinct (a JS object cannot repeat keys), and every value is a
byte string. -/
def goodRecord (service : String) (r : Record) : Prop :=
  (∀ p ∈ r, p.1 ∈ allowedFields service) ∧ (recordKeys r).Nodup ∧ ∀ p ∈ r, valBytes p.2

instance (service : String) (r : Record) : Decidable (goodRecord service r) := by
  unfold goodRecord; infer_instance

/-- The transformation `encryptSensitiveFields` applies to one value. -/
def cipherOf (k : List Nat) : FieldVal → FieldVal
  | .vStr s => .vStr (b64encode (encrypt k s))
  | .vBool b => .vBool b

/-- Specification form of the sealed record body: every field in `tfs`
replaced by its ciphertext, all other fields untouched, order preserved. -/
def sealValsBy (k : List Nat) (tfs : List String) (r : Record) : Record :=
  r.map (fun p => (p.1, if p.1 ∈ tfs then cipherOf k p.2 else p.2))

/-- The sensitive fields that are present and truthy in `r` (the ones the
sealing loop actually encrypts), in schema order. -/
def activeSens (sens : List String) (r : Record) : List String :=
  sens.filter (fun f => truthy (objGet r f))

/-- The `<field>_encrypted = true` markers appended by the sealing loop. -/
def marksOf (tfs : List String) : Record :=
  tfs.map (fun f => (f ++ "_encrypted", FieldVal.vBool true))

/-- `sub` occurs as a contiguous byte substring of `doc`. -/
def bytesInfix (sub doc : List Nat) : Prop := ∃ s t, s ++ sub ++ t = doc

/-! ### Concrete vault states used to exercise the operations -/

/-- A 32-byte master key (all bytes `1`). -/
def exKey : List Nat := List.replicate 32 1

/-- A fresh, initialized vault with an empty store. -/
def exStEmpty : VaultState := ⟨[], some exKey, none⟩

/-- A vault holding one (plaintext-modelled) stripe record. -/
def exStStripe : VaultState := ⟨[("stripe", some [("api_key", FieldVal.vStr [9])])], some exKey, none⟩

/-- A vault holding one github record. -/
def exStGithub : VaultState := ⟨[("github", some [("token", FieldVal.vStr [120])])], some exKey, none⟩

/-- A vault whose master key happens to be all zero bytes. -/
def exStZeroKey : VaultState := ⟨[], some (List.replicate 32 0), none⟩

/-- A vault with a live record, a stale backup and a fresh backup, plus a
persisted document on disk. -/
def exStCleanup : VaultState :=
  ⟨[("github", some [("token", FieldVal.vStr [97])]),
    ("github_backup_100", some []),
    ("github_backup_9999999999999", some [])],
   some (List.replicate 32 3), some [1, 2, 3]⟩

/-! ## Lemmas: XOR stream -/

theorem keyAt_lt (k : List Nat) (hk : isBytes k) (i : Nat) : keyAt k i < 256 := by
  unfold keyAt
  match k with
  | [] => simp [List.getD]
  | a :: tl =>
    have hlen : i % (a :: tl).length < (a :: tl).length := Nat.mod_lt _ (by simp)
    rw [List.getD_eq_getElem _ _ hlen]
    exact hk _ (List.getElem_mem hlen)

theorem xorStream_xorStream (k : List Nat) :
    ∀ (i : Nat) (l : List Nat), xorStream k i (xorStream k i l) = l := by
  intro i l
  induction l generalizing i with
  | nil => rfl
  | cons b rest ih => simp [xorStream, ih, Nat.xor_cancel_right]

theorem xorStream_length (k : List Nat) :
    ∀ (i : Nat) (l : List Nat), (xorStream k i l).length = l.length := by
  intro i l
  induction l generalizing i with
  | nil => rfl
  | cons b rest ih => simp [xorStream, ih]

theorem isBytes_xorStream (k : List Nat) (hk : isBytes k) :
    ∀ (i : Nat) (l : List Nat), isBytes l → isBytes (xorStream k i l) := by
  intro i l
  induction l generalizing i with
  | nil => intro _; exact fun x hx => absurd hx (List.not_mem_nil x)
  | cons b rest ih =>
    intro hl x hx
    rcases hx with _ | hx
    · have hb : b < 256 := hl b (by simp)
      have hkb : keyAt k i < 256 := keyAt_lt k hk i
      exact Nat.xor_lt_two_pow (n := 8) hb hkb
    · exact ih (i + 1) (fun y hy => hl y (by simp [hy])) x (by assumption)

theorem xorStream_getD (k : List Nat) :
    ∀ (l : List Nat) (i n : Nat), n < l.length →
      (xorStream k i l).getD n 0 = l.getD n 0 ^^^ keyAt k (i + n) := by
  intro l
  induction l with
  | nil => intro i n h; simp at h
  | cons b rest ih =>
    intro i n h
    match n with
    | 0 => simp [xorStream]
    | m + 1 =>
      have hm : m < rest.length := by simpa using h
      simp only [xorStream, List.getD_cons_succ]
      rw [ih (i + 1) m hm]
      have harg : i + 1 + m = i + (m + 1) := by omega
      rw [harg]

/-! ## Lemmas: base64 round trip -/

theorem b64CharDecode_encode : ∀ s < 64, b64CharDecode (b64CharEncode s) = some s := by decide

theorem b64CharDecode_pad : b64CharDecode 61 = none := by decide

theorem b64_roundtrip : ∀ (l : List Nat), isBytes l → b64decodeJS (b64encode l) = l
  | [], _ => rfl
  | [b0], h => by
    have hb0 : b0 < 256 := h b0 (by simp)
    have h1 : b0 / 4 < 64 := by omega
    have h2 : (b0 % 4) * 16 < 64 := by omega
    unfold b64decodeJS
    simp [b64encode, List.filterMap_cons, b64CharDecode_encode _ h1,
      b64CharDecode_encode _ h2, b64CharDecode_pad, sextDecode]
    omega
  | [b0, b1], h => by
    have hb0 : b0 < 256 := h b0 (by simp)
    have hb1 : b1 < 256 := h b1 (by simp)
    have h1 : b0 / 4 < 64 := by omega
    have h2 : (b0 % 4) * 16 + b1 / 16 < 64 := by omega
    have h3 : (b1 % 16) * 4 < 64 := by omega
    unfold b64decodeJS
    simp [b64encode, List.filterMap_cons, b64CharDecode_encode _ h1,
      b64CharDecode_encode _ h2, b64CharDecode_encode _ h3, b64CharDecode_pad, sextDecode]
    omega
  | b0 :: b1 :: b2 :: rest, h => by
    have hb0 : b0 < 256 := h b0 (by simp)
    have hb1 : b1 < 256 := h b1 (by simp)
    have hb2 : b2 < 256 := h b2 (by simp)
    have ih := b64_roundtrip rest (fun x hx => h x (by simp [hx]))
    have h1 : b0 / 4 < 64 := by omega
    have h2 : (b0 % 4) * 16 + b1 / 16 < 64 := by omega
    have h3 : (b1 % 16) * 4 + b2 / 64 < 64 := by omega
    have h4 : b2 % 64 < 64 := by omega
    unfold b64decodeJS at ih ⊢
    simp only [b64encode, List.filterMap_cons, b64CharDecode_encode _ h1,
      b64CharDecode_encode _ h2, b64CharDecode_encode _ h3, b64CharDecode_encode _ h4,
      sextDecode, ih, List.cons.injEq]
    refine ⟨by omega, by omega, by omega, trivial⟩

theorem b64encode_length : ∀ (l : List Nat), (b64encode l).length = 4 * ((l.length + 2) / 3)
  | [] => rfl
  | [_] => by simp [b64encode]
  | [_, _] => by simp [b64encode]
  | b0 :: b1 :: b2 :: rest => by
    simp only [b64encode, List.length_cons, b64encode_length rest]
    omega

theorem b64encode_ne_self (x l : List Nat) (hlen : x.length = l.length) (hne : l ≠ []) :
    b64encode x ≠ l := by
  intro heq
  have h1 : (b64encode x).length = l.length := by rw [heq]
  rw [b64encode_length, hlen] at h1
  have h2 : 1 ≤ l.length := by
    cases l with
    | nil => exact absurd rfl hne
    | cons a tl => simp
  omega

theorem b64encode_ne_nil (l : List Nat) (h : l ≠ []) : b64encode l ≠ [] := by
  intro hc
  have := b64encode_length l
  rw [hc] at this
  have h2 : 1 ≤ l.length := by
    cases l with
    | nil => exact absurd rfl h
    | cons a tl => simp
  simp at this
  omega

/-! ## Lemmas: JS object (association list) operations -/

theorem recordKeys_nil : recordKeys [] = [] := rfl

theorem recordKeys_cons (p : String × FieldVal) (rest : Record) :
    recordKeys (p :: rest) = p.1 :: recordKeys rest := rfl

theorem recordKeys_append (r1 r2 : Record) :
    recordKeys (r1 ++ r2) = recordKeys r1 ++ recordKeys r2 := by
  simp [recordKeys]

theorem objGet_mem (r : Record) (f : String) (v : FieldVal) (h : objGet r f = some v) :
    (f, v) ∈ r := by
  induction r with
  | nil => simp [objGet] at h
  | cons p rest ih =>
    obtain ⟨g, w⟩ := p
    by_cases hg : g = f
    · subst hg
      simp [objGet] at h
      simp [h]
    · simp only [objGet, hg, if_false] at h
      exact List.mem_cons_of_mem _ (ih h)

theorem mem_keys_of_objGet (r : Record) (f : String) (v : FieldVal)
    (h : objGet r f = some v) : f ∈ recordKeys r :=
  List.mem_map.mpr ⟨(f, v), objGet_mem r f v h, rfl⟩

theorem objGet_eq_none_of_not_mem (r : Record) (f : String) (h : f ∉ recordKeys r) :
    objGet r f = none := by
  induction r with
  | nil => rfl
  | cons p rest ih =>
    obtain ⟨g, w⟩ := p
    rw [recordKeys_cons] at h
    simp only [List.mem_cons, not_or] at h
    simp only [objGet, Ne.symm h.1, if_false]
    exact ih h.2

theorem objGet_isSome_of_mem_keys (r : Record) (f : String) (h : f ∈ recordKeys r) :
    (objGet r f).isSome = true := by
  induction r with
  | nil => simp [recordKeys] at h
  | cons p rest ih =>
    obtain ⟨a, b⟩ := p
    by_cases ha : a = f
    · simp [objGet, ha]
    · rw [recordKeys_cons] at h
      rcases List.mem_cons.mp h with heq | hmem
      · exact absurd heq.symm ha
      · simp only [objGet, ha, if_false]
        exact ih hmem

theorem not_mem_keys_of_objGet_none (r : Record) (f : String) (h : objGet r f = none) :
    f ∉ recordKeys r := by
  intro hc
  have := objGet_isSome_of_mem_keys r f hc
  rw [h] at this
  simp at this

theorem objGet_objSet_ne (r : Record) (f g : String) (v : FieldVal) (h : g ≠ f) :
    objGet (objSet r f v) g = objGet r g := by
  induction r with
  | nil => simp [objSet, objGet, Ne.symm h]
  | cons p rest ih =>
    obtain ⟨a, w⟩ := p
    by_cases ha : a = f
    · subst ha
      simp [objSet, objGet, Ne.symm h, h]
    · simp only [objSet, ha, if_false, objGet]
      by_cases hag : a = g
      · simp [hag]
      · simp [hag, ih]

theorem objSet_of_not_mem (r : Record) (f : String) (v : FieldVal)
    (h : f ∉ recordKeys r) : objSet r f v = r ++ [(f, v)] := by
  induction r with
  | nil => rfl
  | cons p rest ih =>
    obtain ⟨g, w⟩ := p
    rw [recordKeys_cons] at h
    simp only [List.mem_cons, not_or] at h
    simp only [objSet, Ne.symm h.1, if_false, List.cons_append, List.cons.injEq, true_and]
    exact ih h.2

theorem recordKeys_objSet_of_mem (r : Record) (f : String) (v : FieldVal)
    (h : f ∈ recordKeys r) : recordKeys (objSet r f v) = recordKeys r := by
  induction r with
  | nil => simp [recordKeys] at h
  | cons p rest ih =>
    obtain ⟨g, w⟩ := p
    by_cases hg : g = f
    · subst hg
      simp [objSet, recordKeys_cons]
    · rw [recordKeys_cons] at h
      rcases List.mem_cons.mp h with heq | hmem
      · exact absurd heq.symm hg
      · simp only [objSet, hg, if_false, recordKeys_cons, ih hmem]

theorem objGet_append_left (r1 r2 : Record) (f : String) (v : FieldVal)
    (h : objGet r1 f = some v) : objGet (r1 ++ r2) f = some v := by
  induction r1 with
  | nil => simp [objGet] at h
  | cons p rest ih =>
    obtain ⟨g, w⟩ := p
    by_cases hg : g = f
    · subst hg
      simp [objGet] at h ⊢
      exact h
    · simp only [objGet, hg, if_false, List.cons_append] at h ⊢
      exact ih h

theorem objGet_append_right (r1 r2 : Record) (f : String)
    (h : f ∉ recordKeys r1) : objGet (r1 ++ r2) f = objGet r2 f := by
  induction r1 with
  | nil => rfl
  | cons p rest ih =>
    obtain ⟨g, w⟩ := p
    rw [recordKeys_cons] at h
    simp only [List.mem_cons, not_or] at h
    simp only [List.cons_append, objGet, Ne.symm h.1, if_false]
    exact ih h.2

theorem objGet_append_single_ne (r1 : Record) (m f : String) (w : FieldVal)
    (h : f ≠ m) : objGet (r1 ++ [(m, w)]) f = objGet r1 f := by
  cases hg : objGet r1 f with
  | some v => exact objGet_append_left r1 _ f v hg
  | none =>
    rw [objGet_append_right r1 _ f (not_mem_keys_of_objGet_none r1 f hg)]
    simp [objGet, Ne.symm h]

theorem objSet_append_left (r1 r2 : Record) (f : String) (v : FieldVal)
    (h : f ∈ recordKeys r1) : objSet (r1 ++ r2) f v = objSet r1 f v ++ r2 := by
  induction r1 with
  | nil => simp [recordKeys] at h
  | cons p rest ih =>
    obtain ⟨g, w⟩ := p
    by_cases hg : g = f
    · subst hg
      simp [objSet]
    · rw [recordKeys_cons] at h
      rcases List.mem_cons.mp h with heq | hmem
      · exact absurd heq.symm hg
      · simp only [List.cons_append, objSet, hg, if_false]
        exact congrArg (fun l => (g, w) :: l) (ih hmem)

theorem objDelete_append_right (r1 r2 : Record) (f : String)
    (h : f ∉ recordKeys r1) : objDelete (r1 ++ r2) f = r1 ++ objDelete r2 f := by
  induction r1 with
  | nil => rfl
  | cons p rest ih =>
    obtain ⟨g, w⟩ := p
    rw [recordKeys_cons] at h
    simp only [List.mem_cons, not_or] at h
    simp only [List.cons_append, objDelete, Ne.symm h.1, if_false, List.cons.injEq, true_and]
    exact ih h.2

theorem keyMap_objSet (g : String → FieldVal → FieldVal) (r : Record) (f : String)
    (w : FieldVal) :
    (objSet r f w).map (fun p => (p.1, g p.1 p.2)) =
      objSet (r.map (fun p => (p.1, g p.1 p.2))) f (g f w) := by
  induction r with
  | nil => rfl
  | cons p rest ih =>
    obtain ⟨a, v⟩ := p
    by_cases ha : a = f
    · subst ha
      simp [objSet]
    · simp only [objSet, ha, if_false, List.map_cons, ih]

theorem objGet_keyMap (g : String → FieldVal → FieldVal) (r : Record) (f : String) :
    objGet (r.map (fun p => (p.1, g p.1 p.2))) f = (objGet r f).map (g f) := by
  induction r with
  | nil => rfl
  | cons p rest ih =>
    obtain ⟨a, v⟩ := p
    by_cases ha : a = f
    · subst ha
      simp [objGet]
    · simp only [List.map_cons, objGet, ha, if_false, ih]

theorem recordKeys_keyMap (g : String → FieldVal → FieldVal) (r : Record) :
    recordKeys (r.map (fun p => (p.1, g p.1 p.2))) = recordKeys r := by
  simp [recordKeys]

/-! ## Lemmas: the sealing loop -/

theorem strAppend_cancel (a c b : String) (h : a ++ b = c ++ b) : a = c := by
  obtain ⟨la⟩ := a
  obtain ⟨lc⟩ := c
  obtain ⟨lb⟩ := b
  have hd : la ++ lb = lc ++ lb := congrArg String.data h
  have hl : la = lc := (List.append_left_inj lb).mp hd
  rw [hl]

theorem sealValsBy_nil (k : List Nat) (r : Record) : sealValsBy k [] r = r := by
  induction r with
  | nil => rfl
  | cons p rest ih =>
    obtain ⟨a, v⟩ := p
    simp only [sealValsBy, List.map_cons] at ih ⊢
    rw [ih]
    simp

theorem sealValsBy_cons_of_not_mem_keys (k : List Nat) (f : String) (tfs : List String)
    (r : Record) (h : f ∉ recordKeys r) :
    sealValsBy k (f :: tfs) r = sealValsBy k tfs r := by
  induction r with
  | nil => rfl
  | cons p rest ih =>
    obtain ⟨a, v⟩ := p
    rw [recordKeys_cons] at h
    simp only [List.mem_cons, not_or] at h
    have ha : a ≠ f := Ne.symm h.1
    simp only [sealValsBy, List.map_cons] at ih ⊢
    rw [ih h.2]
    congr 2
    simp [List.mem_cons, ha]

theorem objGet_sealValsBy (k : List Nat) (tfs : List String) (r : Record) (f : String) :
    objGet (sealValsBy k tfs r) f =
      (objGet r f).map (fun v => if f ∈ tfs then cipherOf k v else v) := by
  unfold sealValsBy
  exact objGet_keyMap (fun a v => if a ∈ tfs then cipherOf k v else v) r f

theorem recordKeys_sealValsBy (k : List Nat) (tfs : List String) (r : Record) :
    recordKeys (sealValsBy k tfs r) = recordKeys r := by
  unfold sealValsBy
  exact recordKeys_keyMap (fun a v => if a ∈ tfs then cipherOf k v else v) r

theorem sealValsBy_append (k : List Nat) (tfs : List String) (r1 r2 : Record) :
    sealValsBy k tfs (r1 ++ r2) = sealValsBy k tfs r1 ++ sealValsBy k tfs r2 := by
  simp [sealValsBy]

theorem sealValsBy_objSet (k : List Nat) (tfs : List String) (f : String) (r : Record)
    (w : FieldVal) (hnd : (recordKeys r).Nodup) (hf : f ∉ tfs)
    (hget : objGet r f = some w) :
    objSet (sealValsBy k tfs r) f (cipherOf k w) = sealValsBy k (f :: tfs) r := by
  induction r with
  | nil => simp [objGet] at hget
  | cons p rest ih =>
    obtain ⟨a, v⟩ := p
    rw [recordKeys_cons] at hnd
    by_cases ha : a = f
    · subst ha
      have hv : v = w := by simpa [objGet] using hget
      subst hv
      have hnm : a ∉ recordKeys rest := (List.nodup_cons.mp hnd).1
      have htl := sealValsBy_cons_of_not_mem_keys k a tfs rest hnm
      simp only [sealValsBy, List.map_cons] at htl ⊢
      rw [if_neg hf]
      simp only [objSet, if_pos rfl]
      rw [htl]
      simp
    · have hget2 : objGet rest f = some w := by simpa [objGet, ha] using hget
      have hnd2 : (recordKeys rest).Nodup := (List.nodup_cons.mp hnd).2
      have hrec := ih hnd2 hget2
      simp only [sealValsBy, List.map_cons] at hrec ⊢
      rw [objSet, if_neg ha]
      rw [hrec]
      congr 2
      simp [List.mem_cons, ha]

theorem objSet_sealValsBy_back (k : List Nat) (tfs : List String) (f : String) (r : Record)
    (w : FieldVal) (hnd : (recordKeys r).Nodup) (hf : f ∉ tfs)
    (hget : objGet r f = some w) :
    objSet (sealValsBy k (f :: tfs) r) f w = sealValsBy k tfs r := by
  induction r with
  | nil => simp [objGet] at hget
  | cons p rest ih =>
    obtain ⟨a, v⟩ := p
    rw [recordKeys_cons] at hnd
    by_cases ha : a = f
    · subst ha
      have hv : v = w := by simpa [objGet] using hget
      subst hv
      have hnm : a ∉ recordKeys rest := (List.nodup_cons.mp hnd).1
      have htl := sealValsBy_cons_of_not_mem_keys k a tfs rest hnm
      simp only [sealValsBy, List.map_cons] at htl ⊢
      rw [if_pos (List.mem_cons_self a tfs), if_neg hf]
      simp only [objSet, if_pos rfl]
      rw [htl]
      simp
    · have hget2 : objGet rest f = some w := by simpa [objGet, ha] using hget
      have hnd2 : (recordKeys rest).Nodup := (List.nodup_cons.mp hnd).2
      have hrec := ih hnd2 hget2
      simp only [sealValsBy, List.map_cons] at hrec ⊢
      rw [objSet, if_neg ha]
      rw [hrec]
      congr 2
      simp [List.mem_cons, ha]

theorem activeSens_congr (sens : List String) (r1 r2 : Record)
    (h : ∀ f ∈ sens, objGet r1 f = objGet r2 f) :
    activeSens sens r1 = activeSens sens r2 := by
  unfold activeSens
  exact List.filter_congr (fun f hf => by rw [h f hf])

theorem activeSens_cons_pos (sens : List String) (f : String) (r : Record)
    (h : truthy (objGet r f) = true) :
    activeSens (f :: sens) r = f :: activeSens sens r := by
  simp [activeSens, h]

theorem activeSens_cons_neg (sens : List String) (f : String) (r : Record)
    (h : truthy (objGet r f) = false) :
    activeSens (f :: sens) r = activeSens sens r := by
  simp [activeSens, h]

theorem activeSens_subset (sens : List String) (r : Record) (f : String)
    (h : f ∈ activeSens sens r) : f ∈ sens :=
  List.mem_of_mem_filter h

theorem truthy_of_mem_activeSens (sens : List String) (r : Record) (f : String)
    (h : f ∈ activeSens sens r) : truthy (objGet r f) = true := by
  have := List.of_mem_filter h
  simpa using this

theorem esfLoop_spec (k : List Nat) :
    ∀ (sens : List String) (r : Record),
      (recordKeys r).Nodup →
      sens.Nodup →
      (∀ f ∈ sens, ∀ g ∈ sens, g ≠ f ++ "_encrypted") →
      (∀ f ∈ sens, ∀ g ∈ recordKeys r, g ≠ f ++ "_encrypted") →
      (∀ f ∈ sens, ∀ v, objGet r f = some v → ∃ s, v = FieldVal.vStr s) →
      esfLoop (some k) sens r =
        .ok (sealValsBy k (activeSens sens r) r ++ marksOf (activeSens sens r)) := by
  intro sens
  induction sens with
  | nil =>
    intro r hnd hsnd hpairs hkeys hvals
    simp [esfLoop, activeSens, marksOf, sealValsBy_nil]
  | cons f rest ih =>
    intro r hnd hsnd hpairs hkeys hvals
    by_cases htr : truthy (objGet r f) = true
    · -- the field is present and truthy: it gets sealed
      have hvev : ∃ v, objGet r f = some v := by
        cases hg : objGet r f with
        | none => rw [hg] at htr; simp [truthy] at htr
        | some v => exact ⟨v, rfl⟩
      obtain ⟨v, hv⟩ := hvev
      obtain ⟨s, rfl⟩ := hvals f (List.mem_cons_self f rest) v hv
      have hfmem : f ∈ recordKeys r := mem_keys_of_objGet r f _ hv
      have hr1keys :
          recordKeys (objSet r f (FieldVal.vStr (b64encode (encrypt k s)))) = recordKeys r :=
        recordKeys_objSet_of_mem r f _ hfmem
      have hmnotin :
          (f ++ "_encrypted") ∉
            recordKeys (objSet r f (FieldVal.vStr (b64encode (encrypt k s)))) := by
        rw [hr1keys]
        intro hcmem
        exact hkeys f (List.mem_cons_self f rest) _ hcmem rfl
      have hr2 :
          objSet (objSet r f (FieldVal.vStr (b64encode (encrypt k s))))
              (f ++ "_encrypted") (FieldVal.vBool true) =
            objSet r f (FieldVal.vStr (b64encode (encrypt k s))) ++
              [(f ++ "_encrypted", FieldVal.vBool true)] :=
        objSet_of_not_mem _ _ _ hmnotin
      have hstep : esfLoop (some k) (f :: rest) r =
          esfLoop (some k) rest
            (objSet r f (FieldVal.vStr (b64encode (encrypt k s))) ++
              [(f ++ "_encrypted", FieldVal.vBool true)]) := by
        rw [← hr2]
        have htrs : truthy (some (FieldVal.vStr s)) = true := hv ▸ htr
        simp only [esfLoop, htr, hv, htrs, if_true]
      have hr2keys :
          recordKeys (objSet r f (FieldVal.vStr (b64encode (encrypt k s))) ++
              [(f ++ "_encrypted", FieldVal.vBool true)]) =
            recordKeys r ++ [f ++ "_encrypted"] := by
        rw [recordKeys_append, hr1keys]
        rfl
      have hnd2 :
          (recordKeys (objSet r f (FieldVal.vStr (b64encode (encrypt k s))) ++
              [(f ++ "_encrypted", FieldVal.vBool true)])).Nodup := by
        rw [hr2keys]
        refine List.Nodup.append hnd (List.nodup_singleton _) ?_
        intro x hx hy
        simp only [List.mem_singleton] at hy
        subst hy
        exact hkeys f (List.mem_cons_self f rest) _ hx rfl
      have hgets : ∀ g ∈ rest,
          objGet (objSet r f (FieldVal.vStr (b64encode (encrypt k s))) ++
              [(f ++ "_encrypted", FieldVal.vBool true)]) g = objGet r g := by
        intro g hg
        have hgm : g ≠ f ++ "_encrypted" :=
          hpairs f (List.mem_cons_self f rest) g (List.mem_cons_of_mem f hg)
        have hgf : g ≠ f := by
          intro hc
          subst hc
          exact (List.nodup_cons.mp hsnd).1 hg
        rw [objGet_append_single_ne _ _ _ _ hgm, objGet_objSet_ne _ _ _ _ hgf]
      have hih := ih (objSet r f (FieldVal.vStr (b64encode (encrypt k s))) ++
          [(f ++ "_encrypted", FieldVal.vBool true)]) hnd2 (List.nodup_cons.mp hsnd).2
        (fun f' hf' g hg =>
          hpairs f' (List.mem_cons_of_mem f hf') g (List.mem_cons_of_mem f hg))
        (by
          intro f' hf' g hg
          rw [hr2keys] at hg
          rcases List.mem_append.mp hg with hg | hg
          · exact hkeys f' (List.mem_cons_of_mem f hf') g hg
          · simp only [List.mem_singleton] at hg
            subst hg
            intro hc
            have hff : f = f' := strAppend_cancel f f' "_encrypted" hc
            subst hff
            exact (List.nodup_cons.mp hsnd).1 hf')
        (by
          intro f' hf' v' hv'
          rw [hgets f' hf'] at hv'
          exact hvals f' (List.mem_cons_of_mem f hf') v' hv')
      have htfs2 : activeSens rest (objSet r f (FieldVal.vStr (b64encode (encrypt k s))) ++
          [(f ++ "_encrypted", FieldVal.vBool true)]) = activeSens rest r :=
        activeSens_congr rest _ r hgets
      have hfnotin : f ∉ activeSens rest r := fun hc =>
        (List.nodup_cons.mp hsnd).1 (activeSens_subset rest r f hc)
      have hmarknotin : (f ++ "_encrypted") ∉ activeSens rest r := by
        intro hc
        exact hpairs f (List.mem_cons_self f rest) _
          (List.mem_cons_of_mem f (activeSens_subset rest r _ hc)) rfl
      have hseal2 :
          sealValsBy k (activeSens rest r)
              (objSet r f (FieldVal.vStr (b64encode (encrypt k s))) ++
                [(f ++ "_encrypted", FieldVal.vBool true)]) =
            sealValsBy k (f :: activeSens rest r) r ++
              [(f ++ "_encrypted", FieldVal.vBool true)] := by
        rw [sealValsBy_append]
        congr 1
        · have hkm := keyMap_objSet
            (fun a v => if a ∈ activeSens rest r then cipherOf k v else v) r f
            (FieldVal.vStr (b64encode (encrypt k s)))
          have hcy : (if f ∈ activeSens rest r then
              cipherOf k (FieldVal.vStr (b64encode (encrypt k s)))
              else FieldVal.vStr (b64encode (encrypt k s))) =
              FieldVal.vStr (b64encode (encrypt k s)) := if_neg hfnotin
          unfold sealValsBy
          rw [hkm, hcy]
          have hback := sealValsBy_objSet k (activeSens rest r) f r (FieldVal.vStr s)
            hnd hfnotin hv
          unfold sealValsBy at hback
          have hcip : cipherOf k (FieldVal.vStr s) = FieldVal.vStr (b64encode (encrypt k s)) := rfl
          rw [hcip] at hback
          exact hback
        · simp [sealValsBy, hmarknotin]
      rw [hstep, hih, htfs2, hseal2, activeSens_cons_pos rest f r htr]
      simp only [marksOf, List.map_cons, Except.ok.injEq]
      rw [List.append_assoc]
      rfl
    · -- the field is absent, empty or falsy: the loop skips it
      have htr' : truthy (objGet r f) = false := by
        cases h : truthy (objGet r f)
        · rfl
        · exact absurd h htr
      have hstep : esfLoop (some k) (f :: rest) r = esfLoop (some k) rest r := by
        simp [esfLoop, htr']
      rw [hstep, activeSens_cons_neg rest f r htr']
      exact ih r hnd (List.nodup_cons.mp hsnd).2
        (fun f' hf' g hg =>
          hpairs f' (List.mem_cons_of_mem f hf') g (List.mem_cons_of_mem f hg))
        (fun f' hf' g hg => hkeys f' (List.mem_cons_of_mem f hf') g hg)
        (fun f' hf' v' hv' => hvals f' (List.mem_cons_of_mem f hf') v' hv')

/-! ## Lemmas: the opening loop -/

theorem dsfLoop_skip (mk : Option (List Nat)) :
    ∀ (E1 E2 : List (String × FieldVal)) (res : Record),
      (∀ p ∈ E1, jsEndsWith p.1 "_encrypted" = false) →
      dsfLoop mk (E1 ++ E2) res = dsfLoop mk E2 res := by
  intro E1
  induction E1 with
  | nil => intro E2 res _; rfl
  | cons p rest ih =>
    intro E2 res h
    obtain ⟨field, value⟩ := p
    have hf : jsEndsWith field "_encrypted" = false := h (field, value) (List.mem_cons_self _ _)
    have hcond : ¬(jsEndsWith field "_encrypted" = true ∧ value = FieldVal.vBool true) := by
      intro hc
      rw [hf] at hc
      exact Bool.false_ne_true hc.1
    simp only [List.cons_append, dsfLoop, if_neg hcond]
    exact ih E2 res (fun q hq => h q (List.mem_cons_of_mem _ hq))

theorem dsfStep_marker (k : List Nat) (hk : isBytes k) (f : String) (tfs : List String)
    (r : Record) (M : Record) (s : List Nat)
    (hnd : (recordKeys r).Nodup)
    (hrep : jsReplaceFirst (f ++ "_encrypted") "_encrypted" "" = f)
    (hfnotin : f ∉ tfs)
    (hget : objGet r f = some (FieldVal.vStr s))
    (hsne : s ≠ [])
    (hsbytes : isBytes s)
    (hmarkfresh : (f ++ "_encrypted") ∉ recordKeys r) :
    dsfStep (some k) (sealValsBy k (f :: tfs) r ++ ((f ++ "_encrypted", FieldVal.vBool true) :: M))
        (f ++ "_encrypted") =
      sealValsBy k tfs r ++ M := by
  have h1 : objGet (sealValsBy k (f :: tfs) r) f =
      some (FieldVal.vStr (b64encode (encrypt k s))) := by
    rw [objGet_sealValsBy, hget]
    simp [List.mem_cons_self, cipherOf]
  have h2 : objGet (sealValsBy k (f :: tfs) r ++
      ((f ++ "_encrypted", FieldVal.vBool true) :: M)) f =
      some (FieldVal.vStr (b64encode (encrypt k s))) := objGet_append_left _ _ _ _ h1
  have hel : encrypt k s ≠ [] := by
    intro hc
    apply hsne
    have hlen : (encrypt k s).length = s.length := xorStream_length k 0 s
    rw [hc] at hlen
    simp only [List.length_nil] at hlen
    exact List.length_eq_zero.mp hlen.symm
  have hbne : b64encode (encrypt k s) ≠ [] := b64encode_ne_nil _ hel
  have htrs : truthy (some (FieldVal.vStr (b64encode (encrypt k s)))) = true := by
    simp [truthy, List.isEmpty_iff, hbne]
  have hdec : decrypt k (b64decodeJS (b64encode (encrypt k s))) = s := by
    rw [b64_roundtrip (encrypt k s) (isBytes_xorStream k hk 0 s hsbytes)]
    exact xorStream_xorStream k 0 s
  simp only [dsfStep]
  rw [hrep, h2, if_pos htrs]
  dsimp only
  rw [hdec]
  have hfmemk : f ∈ recordKeys (sealValsBy k (f :: tfs) r) := by
    rw [recordKeys_sealValsBy]
    exact mem_keys_of_objGet r f _ hget
  rw [objSet_append_left _ _ _ _ hfmemk]
  rw [objSet_sealValsBy_back k tfs f r (FieldVal.vStr s) hnd hfnotin hget]
  have hmfresh2 : (f ++ "_encrypted") ∉ recordKeys (sealValsBy k tfs r) := by
    rw [recordKeys_sealValsBy]
    exact hmarkfresh
  rw [objDelete_append_right _ _ _ hmfresh2]
  simp [objDelete]

theorem dsfLoop_restore (k : List Nat) (hk : isBytes k) :
    ∀ (tfs : List String) (r : Record),
      (recordKeys r).Nodup →
      (∀ f ∈ tfs, jsEndsWith (f ++ "_encrypted") "_encrypted" = true) →
      (∀ f ∈ tfs, jsReplaceFirst (f ++ "_encrypted") "_encrypted" "" = f) →
      tfs.Nodup →
      (∀ f ∈ tfs, ∀ g ∈ recordKeys r, g ≠ f ++ "_encrypted") →
      (∀ f ∈ tfs, ∃ s, objGet r f = some (FieldVal.vStr s) ∧ s ≠ [] ∧ isBytes s) →
      dsfLoop (some k) (marksOf tfs) (sealValsBy k tfs r ++ marksOf tfs) = r := by
  intro tfs
  induction tfs with
  | nil =>
    intro r _ _ _ _ _ _
    simp [dsfLoop, marksOf, sealValsBy_nil]
  | cons f rest ih =>
    intro r hnd hends hreps hsnd hkeys hvals
    obtain ⟨s, hget, hsne, hsbytes⟩ := hvals f (List.mem_cons_self f rest)
    have hmarks : marksOf (f :: rest) =
        (f ++ "_encrypted", FieldVal.vBool true) :: marksOf rest := rfl
    rw [hmarks]
    have hcond : jsEndsWith (f ++ "_encrypted") "_encrypted" = true ∧
        FieldVal.vBool true = FieldVal.vBool true :=
      ⟨hends f (List.mem_cons_self f rest), rfl⟩
    simp only [dsfLoop, if_pos hcond]
    have hfnotin : f ∉ rest := (List.nodup_cons.mp hsnd).1
    have hmarkfresh : (f ++ "_encrypted") ∉ recordKeys r := by
      intro hc
      exact hkeys f (List.mem_cons_self f rest) _ hc rfl
    rw [dsfStep_marker k hk f rest r (marksOf rest) s hnd
      (hreps f (List.mem_cons_self f rest)) hfnotin hget hsne hsbytes hmarkfresh]
    rw [if_pos (show jsEndsWith (f ++ "_encrypted") "_encrypted" = true ∧ True from
      ⟨hends f (List.mem_cons_self f rest), trivial⟩)]
    exact ih r hnd
      (fun f' hf' => hends f' (List.mem_cons_of_mem f hf'))
      (fun f' hf' => hreps f' (List.mem_cons_of_mem f hf'))
      (List.nodup_cons.mp hsnd).2
      (fun f' hf' g hg => hkeys f' (List.mem_cons_of_mem f hf') g hg)
      (fun f' hf' => hvals f' (List.mem_cons_of_mem f hf'))

/-! ## Lemmas: the seven known services and their schemas -/

theorem known_service_cases (service : String) (h : knownService service) :
    service = "stripe" ∨ service = "openai" ∨ service = "github" ∨ service = "aws" ∨
    service = "vercel" ∨ service = "netlify" ∨ service = "digitalocean" := by
  unfold knownService validationRules at h
  split_ifs at h with h1 h2 h3 h4 h5 h6 h7
  · exact Or.inl h1
  · exact Or.inr (Or.inl h2)
  · exact Or.inr (Or.inr (Or.inl h3))
  · exact Or.inr (Or.inr (Or.inr (Or.inl h4)))
  · exact Or.inr (Or.inr (Or.inr (Or.inr (Or.inl h5))))
  · exact Or.inr (Or.inr (Or.inr (Or.inr (Or.inr (Or.inl h6)))))
  · exact Or.inr (Or.inr (Or.inr (Or.inr (Or.inr (Or.inr h7)))))
  · simp at h

theorem knownService_ne_empty (service : String) (h : knownService service) : service ≠ "" := by
  rcases known_service_cases service h with rfl | rfl | rfl | rfl | rfl | rfl | rfl <;> decide

theorem sens_conditions (service : String) (h : knownService service) :
    (sensitiveFields service).Nodup ∧
    (∀ f ∈ sensitiveFields service, jsEndsWith (f ++ "_encrypted") "_encrypted" = true) ∧
    (∀ f ∈ sensitiveFields service, jsReplaceFirst (f ++ "_encrypted") "_encrypted" "" = f) ∧
    (∀ f ∈ sensitiveFields service, ∀ g ∈ sensitiveFields service, g ≠ f ++ "_encrypted") ∧
    (∀ f ∈ sensitiveFields service, ∀ g ∈ allowedFields service, g ≠ f ++ "_encrypted") ∧
    (∀ g ∈ allowedFields service, jsEndsWith g "_encrypted" = false) := by
  rcases known_service_cases service h with rfl | rfl | rfl | rfl | rfl | rfl | rfl <;> decide

/-! ## The seal/open round trip -/

theorem seal_open (k : List Nat) (hk : isBytes k) (service : String)
    (hsv : knownService service) (creds : Record) (hgood : goodRecord service creds) :
    ∃ sealed, encryptSensitiveFields (some k) service creds = .ok sealed ∧
      decryptSensitiveFields (some k) service sealed = creds := by
  obtain ⟨hallow, hnd, hvals⟩ := hgood
  obtain ⟨hsnodup, hends, hreps, hpairs, hkeyallow, hallowends⟩ := sens_conditions service hsv
  have hkeysub : ∀ g ∈ recordKeys creds, g ∈ allowedFields service := by
    intro g hg
    rcases List.mem_map.mp hg with ⟨p, hp, rfl⟩
    exact hallow p hp
  have hkeyscond :
      ∀ f ∈ sensitiveFields service, ∀ g ∈ recordKeys creds, g ≠ f ++ "_encrypted" :=
    fun f hf g hg => hkeyallow f hf g (hkeysub g hg)
  have hvalscond : ∀ f ∈ sensitiveFields service, ∀ v, objGet creds f = some v →
      ∃ s, v = FieldVal.vStr s := by
    intro f hf v hv
    have hmem := objGet_mem creds f v hv
    have hb := hvals (f, v) hmem
    cases v with
    | vStr s => exact ⟨s, rfl⟩
    | vBool b => exact absurd hb (by simp [valBytes])
  have hesf := esfLoop_spec k (sensitiveFields service) creds hnd hsnodup hpairs
    hkeyscond hvalscond
  refine ⟨_, hesf, ?_⟩
  unfold decryptSensitiveFields
  have hskip : ∀ p ∈ sealValsBy k (activeSens (sensitiveFields service) creds) creds,
      jsEndsWith p.1 "_encrypted" = false := by
    intro p hp
    have hpk : p.1 ∈ recordKeys (sealValsBy k (activeSens (sensitiveFields service) creds) creds) :=
      List.mem_map.mpr ⟨p, hp, rfl⟩
    rw [recordKeys_sealValsBy] at hpk
    exact hallowends p.1 (hkeysub p.1 hpk)
  rw [dsfLoop_skip (some k) _ _ _ hskip]
  refine dsfLoop_restore k hk (activeSens (sensitiveFields service) creds) creds hnd
    (fun f hf => hends f (activeSens_subset _ _ _ hf))
    (fun f hf => hreps f (activeSens_subset _ _ _ hf))
    (List.Nodup.filter _ hsnodup)
    (fun f hf g hg => hkeyscond f (activeSens_subset _ _ _ hf) g hg)
    ?_
  intro f hf
  have htr := truthy_of_mem_activeSens _ _ _ hf
  have hfse := activeSens_subset _ _ _ hf
  cases hg : objGet creds f with
  | none => rw [hg] at htr; simp [truthy] at htr
  | some v =>
    obtain ⟨s, rfl⟩ := hvalscond f hfse v hg
    refine ⟨s, rfl, ?_, ?_⟩
    · rw [hg] at htr
      simp [truthy] at htr
      intro hc
      subst hc
      simp at htr
    · have hb := hvals (f, FieldVal.vStr s) (objGet_mem creds f _ hg)
      simpa [valBytes] using hb

/-! ## Lemmas: cache map and sorting -/

theorem mapLookup_mapSet_self (c : List (String × Option Record)) (k : String)
    (v : Option Record) : mapLookup (mapSet c k v) k = some v := by
  induction c with
  | nil => simp [mapSet, mapLookup]
  | cons p rest ih =>
    obtain ⟨g, w⟩ := p
    by_cases hg : g = k
    · simp [mapSet, hg, mapLookup]
    · simp [mapSet, hg, mapLookup, ih]

theorem mapLookup_mapSet_ne (c : List (String × Option Record)) (k k' : String)
    (v : Option Record) (h : k' ≠ k) : mapLookup (mapSet c k v) k' = mapLookup c k' := by
  induction c with
  | nil => simp [mapSet, mapLookup, Ne.symm h]
  | cons p rest ih =>
    obtain ⟨g, w⟩ := p
    by_cases hg : g = k
    · subst hg
      simp [mapSet, mapLookup, Ne.symm h]
    · by_cases hgk : g = k'
      · subst hgk
        simp [mapSet, hg, mapLookup, h]
      · simp [mapSet, hg, mapLookup, hgk, ih]

theorem mapHas_mapSet_self (c : List (String × Option Record)) (k : String)
    (v : Option Record) : mapHas (mapSet c k v) k = true := by
  simp [mapHas, mapLookup_mapSet_self]

theorem mem_mapKeys_mapSet (c : List (String × Option Record)) (k : String)
    (v : Option Record) (k' : String) :
    k' ∈ mapKeys (mapSet c k v) ↔ k' = k ∨ k' ∈ mapKeys c := by
  induction c with
  | nil => simp [mapSet, mapKeys]
  | cons p rest ih =>
    obtain ⟨g, w⟩ := p
    by_cases hg : g = k
    · subst hg
      simp [mapSet, mapKeys]
    · simp [mapSet, hg, mapKeys] at ih ⊢
      tauto

theorem mem_insertSorted (s t : String) (l : List String) :
    t ∈ insertSorted s l ↔ t = s ∨ t ∈ l := by
  induction l with
  | nil => simp [insertSorted]
  | cons a rest ih =>
    by_cases hle : s ≤ a
    · simp [insertSorted, hle]
    · simp [insertSorted, hle, ih]
      tauto

theorem mem_sortStrings (t : String) (l : List String) :
    t ∈ sortStrings l ↔ t ∈ l := by
  induction l with
  | nil => simp [sortStrings]
  | cons a rest ih =>
    simp only [sortStrings, List.foldr_cons] at ih ⊢
    rw [mem_insertSorted, ih]
    simp

/-! ## Lemmas: the vault operations -/

theorem setCredentials_ok (st : VaultState) (k : List Nat) (service : String)
    (creds sealed : Record)
    (hmk : st.masterKey = some k)
    (hne : service ≠ "")
    (hval : validateCredentials service creds = .ok ())
    (hesf : encryptSensitiveFields (some k) service creds = .ok sealed) :
    setCredentials st service creds =
      (.ok (), ⟨mapSet st.cache service (some sealed), some k,
        some (encrypt k (jsonStringify (mapSet st.cache service (some sealed))))⟩) := by
  unfold setCredentials saveCredentials
  rw [if_neg hne, hval]
  dsimp only
  rw [hmk, hesf]

theorem getCredentials_of_lookup (st : VaultState) (service : String) (rec : Record)
    (hlk : mapLookup st.cache service = some (some rec)) :
    getCredentials st service =
      (.ok (decryptSensitiveFields st.masterKey service rec), st) := by
  unfold getCredentials mapGetJS mapHas
  rw [hlk]
  simp

theorem checkRequired_ok_iff (service : String) (creds : Record) :
    ∀ req, checkRequired service creds req = .ok () ↔
      ∀ f ∈ req, truthy (objGet creds f) = true := by
  intro req
  induction req with
  | nil => simp [checkRequired]
  | cons f rest ih =>
    by_cases hf : truthy (objGet creds f) = true
    · simp [checkRequired, hf, ih]
    · simp only [checkRequired, if_neg hf]
      constructor
      · intro h
        simp at h
      · intro hall
        exact absurd (hall f (List.mem_cons_self f rest)) hf

theorem checkRequired_error (service : String) (creds : Record) :
    ∀ req e, checkRequired service creds req = .error e →
      ∃ f ∈ req, truthy (objGet creds f) = false ∧ e = missingMsg f service := by
  intro req
  induction req with
  | nil => intro e h; simp [checkRequired] at h
  | cons f rest ih =>
    intro e h
    by_cases hf : truthy (objGet creds f) = true
    · rw [checkRequired, if_pos hf] at h
      obtain ⟨g, hg, hgt, hge⟩ := ih e h
      exact ⟨g, List.mem_cons_of_mem f hg, hgt, hge⟩
    · rw [checkRequired, if_neg hf] at h
      refine ⟨f, List.mem_cons_self f rest, ?_, ?_⟩
      · cases hb : truthy (objGet creds f)
        · rfl
        · exact absurd hb hf
      · cases h
        rfl

/-! ## Claim theorems -/

/-- Claim C4: for every plaintext byte string `p` and every non-empty key
`k`, decrypting the encryption of `p` under `k` with the same `k` yields
`p` (the XOR stream cipher round-trips). -/
theorem claim_c4_field_roundtrip (p k : List Nat) (_hk : k ≠ []) :
    decrypt k (encrypt k p) = p := by
  unfold encrypt decrypt
  exact xorStream_xorStream k 0 p

/-- Witness for C4 at a concrete plaintext and key. -/
theorem claim_c4_witness :
    ([7] : List Nat) ≠ [] ∧ decrypt [7] (encrypt [7] [1, 2, 3]) = [1, 2, 3] :=
  ⟨by decide, claim_c4_field_roundtrip [1, 2, 3] [7] (by decide)⟩

/-- Claim C9: `getCredentials` never mutates the in-memory store: the
post-call state is the pre-call state, the cached sealed record is
unchanged, and a second read returns the same result (decryption operates
on a copy of the cached record). -/
theorem claim_c9_get_is_pure (st : VaultState) (service : String) :
    (getCredentials st service).2 = st ∧
    mapLookup (getCredentials st service).2.cache service = mapLookup st.cache service ∧
    (getCredentials (getCredentials st service).2 service).1 =
      (getCredentials st service).1 := by
  have hsnd : (getCredentials st service).2 = st := by
    unfold getCredentials
    by_cases h : mapHas st.cache service = true <;> simp [h]
  exact ⟨hsnd, by rw [hsnd], by rw [hsnd]⟩

/-- Claim C6: validation of a record rejects exactly when a required field
of a known service is missing or falsy, the error names the first such
field, unknown services accept every record, and the two concrete stripe
examples behave as specified. -/
theorem claim_c6_validation :
    (∀ service creds, validationRules service = none →
      validateCredentials service creds = .ok ()) ∧
    (∀ service rules creds, validationRules service = some rules →
      ((validateCredentials service creds = .ok ()) ↔
        ∀ f ∈ rules.required, truthy (objGet creds f) = true) ∧
      (∀ e, validateCredentials service creds = .error e →
        ∃ f ∈ rules.required, truthy (objGet creds f) = false ∧ e = missingMsg f service)) ∧
    validateCredentials "stripe" [] = .error (missingMsg "api_key" "stripe") ∧
    (setCredentials exStEmpty "stripe" []).1 =
      .error ("Failed to set credentials for stripe: " ++ missingMsg "api_key" "stripe") ∧
    (setCredentials exStEmpty "stripe" [("api_key", FieldVal.vStr (asciiB "sk_x"))]).1 =
      .ok () := by
  refine ⟨?_, ?_, by rfl, by rfl, by rfl⟩
  · intro service creds h
    unfold validateCredentials
    rw [h]
  · intro service rules creds h
    constructor
    · unfold validateCredentials
      rw [h]
      exact checkRequired_ok_iff service creds rules.required
    · intro e he
      unfold validateCredentials at he
      rw [h] at he
      exact checkRequired_error service creds rules.required e he

/-- Witness for C6: the general characterization applied at a concrete
service and record. -/
theorem claim_c6_witness :
    validationRules "github" = some ⟨["token"], ["username", "email"]⟩ ∧
    validateCredentials "github" [("token", FieldVal.vStr [5])] = .ok () :=
  ⟨rfl, (claim_c6_validation.2.1 "github" ⟨["token"], ["username", "email"]⟩
    [("token", FieldVal.vStr [5])] rfl).1.mpr (by decide)⟩

/-- Claim C2 counterexample: `rotateCredentials` on a record that fails
validation raises the validation error but still inserts the backup entry
into the in-memory store, so the store is mutated. -/
theorem claim_c2_counterexample :
    (rotateCredentials exStStripe "stripe" [] 1000).1 =
      .error ("Failed to rotate credentials for stripe: Failed to set credentials for stripe: "
        ++ missingMsg "api_key" "stripe") ∧
    mapHas exStStripe.cache "stripe_backup_1000" = false ∧
    mapHas (rotateCredentials exStStripe "stripe" [] 1000).2.cache "stripe_backup_1000" = true :=
  ⟨rfl, rfl, rfl⟩

/-- Claim C2 (amended): on a validation failure `setCredentials` raises
the error and leaves the state unchanged; `rotateCredentials` raises the
error and leaves the persisted document unchanged, but has already added
the backup entry to the in-memory store. -/
theorem claim_c2_amended (st : VaultState) (service : String) (creds : Record) (e : String)
    (now : Nat) (hval : validateCredentials service creds = .error e) (hne : service ≠ "") :
    setCredentials st service creds =
      (.error ("Failed to set credentials for " ++ service ++ ": " ++ e), st) ∧
    rotateCredentials st service creds now =
      (.error ("Failed to rotate credentials for " ++ service ++ ": " ++
          ("Failed to set credentials for " ++ service ++ ": " ++ e)),
        (⟨mapSet st.cache (service ++ "_backup_" ++ toString now) (mapGetJS st.cache service),
          st.masterKey, st.disk⟩ : VaultState)) := by
  have hset : ∀ st' : VaultState, setCredentials st' service creds =
      (.error ("Failed to set credentials for " ++ service ++ ": " ++ e), st') := by
    intro st'
    unfold setCredentials
    rw [if_neg hne, hval]
  refine ⟨hset st, ?_⟩
  unfold rotateCredentials
  dsimp only
  rw [hset _]

/-- Witness for the amended C2 at a concrete store and invalid record. -/
theorem claim_c2_witness :
    validateCredentials "stripe" [] = .error (missingMsg "api_key" "stripe") ∧
    ("stripe" : String) ≠ "" ∧
    (setCredentials exStStripe "stripe" [] =
      (.error ("Failed to set credentials for stripe: " ++ missingMsg "api_key" "stripe"),
        exStStripe) ∧
    rotateCredentials exStStripe "stripe" [] 5 =
      (.error ("Failed to rotate credentials for " ++ "stripe" ++ ": " ++
          ("Failed to set credentials for " ++ "stripe" ++ ": " ++ missingMsg "api_key" "stripe")),
        (⟨mapSet exStStripe.cache ("stripe" ++ "_backup_" ++ toString 5)
            (mapGetJS exStStripe.cache "stripe"),
          exStStripe.masterKey, exStStripe.disk⟩ : VaultState))) :=
  ⟨rfl, by decide, claim_c2_amended exStStripe "stripe" [] (missingMsg "api_key" "stripe") 5
    rfl (by decide)⟩

/-- Claim C3: storing a schema-satisfying record and reading it back
reconstructs the original field-to-plaintext mapping exactly: sealing then
opening is the identity, and the returned record (being equal to the
original, whose keys carry no `_encrypted` suffix) exposes neither marker
fields nor ciphertext. -/
theorem claim_c3_set_get_roundtrip (st : VaultState) (k : List Nat) (service : String)
    (creds : Record) (hmk : st.masterKey = some k) (hk : isBytes k)
    (hsv : knownService service) (hgood : goodRecord service creds)
    (hval : validateCredentials service creds = .ok ()) :
    (setCredentials st service creds).1 = .ok () ∧
    (getCredentials (setCredentials st service creds).2 service).1 = .ok creds := by
  obtain ⟨sealed, hesf, hopen⟩ := seal_open k hk service hsv creds hgood
  have hne := knownService_ne_empty service hsv
  have hset := setCredentials_ok st k service creds sealed hmk hne hval hesf
  rw [hset]
  refine ⟨rfl, ?_⟩
  have hlk : mapLookup (mapSet st.cache service (some sealed)) service = some (some sealed) :=
    mapLookup_mapSet_self _ _ _
  rw [getCredentials_of_lookup _ service sealed hlk]
  dsimp only
  rw [hopen]

/-- Witness for C3 at a concrete store, key, service and record. -/
theorem claim_c3_witness :
    exStEmpty.masterKey = some exKey ∧ isBytes exKey ∧ knownService "github" ∧
    goodRecord "github" [("token", FieldVal.vStr [103, 104])] ∧
    validateCredentials "github" [("token", FieldVal.vStr [103, 104])] = .ok () ∧
    ((setCredentials exStEmpty "github" [("token", FieldVal.vStr [103, 104])]).1 = .ok () ∧
     (getCredentials (setCredentials exStEmpty "github"
         [("token", FieldVal.vStr [103, 104])]).2 "github").1 =
       .ok [("token", FieldVal.vStr [103, 104])]) :=
  ⟨rfl, by decide, by decide, by decide, rfl,
    claim_c3_set_get_roundtrip exStEmpty exKey "github" [("token", FieldVal.vStr [103, 104])]
      rfl (by decide) (by decide) (by decide) rfl⟩

/-- Claim C7: rotation of a stored service succeeds for a schema-valid new
record; afterwards `listServices` contains both the service and the
timestamped backup id, the backup entry holds the previously stored
(sealed) record, and reading the service returns the new record's values. -/
theorem claim_c7_rotation (st : VaultState) (k : List Nat) (service : String)
    (oldRec newCreds : Record) (now : Nat)
    (hmk : st.masterKey = some k) (hk : isBytes k) (hsv : knownService service)
    (hold : mapLookup st.cache service = some (some oldRec))
    (hgood : goodRecord service newCreds)
    (hval : validateCredentials service newCreds = .ok ()) :
    (rotateCredentials st service newCreds now).1 = .ok () ∧
    service ∈ listServices (rotateCredentials st service newCreds now).2 ∧
    (service ++ "_backup_" ++ toString now) ∈
      listServices (rotateCredentials st service newCreds now).2 ∧
    mapLookup (rotateCredentials st service newCreds now).2.cache
      (service ++ "_backup_" ++ toString now) = some (some oldRec) ∧
    (getCredentials (rotateCredentials st service newCreds now).2 service).1 =
      .ok newCreds := by
  obtain ⟨sealed, hesf, hopen⟩ := seal_open k hk service hsv newCreds hgood
  have hne := knownService_ne_empty service hsv
  have hbkne : service ≠ service ++ "_backup_" ++ toString now := by
    intro hc
    have hcl := congrArg String.length hc
    rw [String.length_append, String.length_append] at hcl
    have h8 : ("_backup_" : String).length = 8 := rfl
    omega
  have hget0 : mapGetJS st.cache service = some oldRec := by
    unfold mapGetJS
    rw [hold]
  have hset := setCredentials_ok
    (⟨mapSet st.cache (service ++ "_backup_" ++ toString now) (some oldRec),
      st.masterKey, st.disk⟩ : VaultState) k service newCreds sealed hmk hne hval hesf
  have hrot : rotateCredentials st service newCreds now =
      (.ok (), ⟨mapSet (mapSet st.cache (service ++ "_backup_" ++ toString now) (some oldRec))
          service (some sealed), some k,
        some (encrypt k (jsonStringify (mapSet (mapSet st.cache
          (service ++ "_backup_" ++ toString now) (some oldRec)) service (some sealed))))⟩) := by
    unfold rotateCredentials
    dsimp only
    rw [hget0, hset]
  rw [hrot]
  refine ⟨rfl, ?_, ?_, ?_, ?_⟩
  · unfold listServices
    rw [mem_sortStrings]
    dsimp only
    rw [mem_mapKeys_mapSet]
    exact Or.inl rfl
  · unfold listServices
    rw [mem_sortStrings]
    dsimp only
    rw [mem_mapKeys_mapSet]
    refine Or.inr ?_
    rw [mem_mapKeys_mapSet]
    exact Or.inl rfl
  · dsimp only
    rw [mapLookup_mapSet_ne _ _ _ _ (Ne.symm hbkne), mapLookup_mapSet_self]
  · have hlk : mapLookup (mapSet (mapSet st.cache
        (service ++ "_backup_" ++ toString now) (some oldRec)) service (some sealed))
        service = some (some sealed) := mapLookup_mapSet_self _ _ _
    rw [getCredentials_of_lookup _ service sealed hlk]
    dsimp only
    rw [hopen]

/-- Witness for C7 at a concrete store, service and new record. -/
theorem claim_c7_witness :
    exStGithub.masterKey = some exKey ∧ isBytes exKey ∧ knownService "github" ∧
    mapLookup exStGithub.cache "github" = some (some [("token", FieldVal.vStr [120])]) ∧
    goodRecord "github" [("token", FieldVal.vStr [5])] ∧
    validateCredentials "github" [("token", FieldVal.vStr [5])] = .ok () ∧
    ((rotateCredentials exStGithub "github" [("token", FieldVal.vStr [5])] 42).1 = .ok () ∧
     "github" ∈ listServices (rotateCredentials exStGithub "github"
       [("token", FieldVal.vStr [5])] 42).2 ∧
     ("github" ++ "_backup_" ++ toString 42) ∈ listServices (rotateCredentials exStGithub
       "github" [("token", FieldVal.vStr [5])] 42).2 ∧
     mapLookup (rotateCredentials exStGithub "github"
         [("token", FieldVal.vStr [5])] 42).2.cache ("github" ++ "_backup_" ++ toString 42) =
       some (some [("token", FieldVal.vStr [120])]) ∧
     (getCredentials (rotateCredentials exStGithub "github"
         [("token", FieldVal.vStr [5])] 42).2 "github").1 =
       .ok [("token", FieldVal.vStr [5])]) :=
  ⟨rfl, by decide, by decide, rfl, by decide, rfl,
    claim_c7_rotation exStGithub exKey "github" [("token", FieldVal.vStr [120])]
      [("token", FieldVal.vStr [5])] 42 rfl (by decide) (by decide) rfl (by decide) rfl⟩

/-- Claim C10: rotating a service that has no stored record raises no
not-found error: it succeeds whenever the new record validates, and it
inserts a backup entry whose stored value is the absent (`undefined`)
prior record, so `listServices` afterwards contains a backup id for a
service that never had credentials. -/
theorem claim_c10_rotate_absent (st : VaultState) (k : List Nat) (service : String)
    (newCreds : Record) (now : Nat)
    (hmk : st.masterKey = some k) (hk : isBytes k) (hsv : knownService service)
    (habsent : mapHas st.cache service = false)
    (hgood : goodRecord service newCreds)
    (hval : validateCredentials service newCreds = .ok ()) :
    (rotateCredentials st service newCreds now).1 = .ok () ∧
    mapLookup (rotateCredentials st service newCreds now).2.cache
      (service ++ "_backup_" ++ toString now) = some none ∧
    (service ++ "_backup_" ++ toString now) ∈
      listServices (rotateCredentials st service newCreds now).2 := by
  obtain ⟨sealed, hesf, _⟩ := seal_open k hk service hsv newCreds hgood
  have hne := knownService_ne_empty service hsv
  have hbkne : service ≠ service ++ "_backup_" ++ toString now := by
    intro hc
    have hcl := congrArg String.length hc
    rw [String.length_append, String.length_append] at hcl
    have h8 : ("_backup_" : String).length = 8 := rfl
    omega
  have hget0 : mapGetJS st.cache service = none := by
    unfold mapGetJS
    cases hlk : mapLookup st.cache service with
    | none => rfl
    | some v =>
      unfold mapHas at habsent
      rw [hlk] at habsent
      simp at habsent
  have hset := setCredentials_ok
    (⟨mapSet st.cache (service ++ "_backup_" ++ toString now) none,
      st.masterKey, st.disk⟩ : VaultState) k service newCreds sealed hmk hne hval hesf
  have hrot : rotateCredentials st service newCreds now =
      (.ok (), ⟨mapSet (mapSet st.cache (service ++ "_backup_" ++ toString now) none)
          service (some sealed), some k,
        some (encrypt k (jsonStringify (mapSet (mapSet st.cache
          (service ++ "_backup_" ++ toString now) none) service (some sealed))))⟩) := by
    unfold rotateCredentials
    dsimp only
    rw [hget0, hset]
  rw [hrot]
  refine ⟨rfl, ?_, ?_⟩
  · dsimp only
    rw [mapLookup_mapSet_ne _ _ _ _ (Ne.symm hbkne), mapLookup_mapSet_self]
  · unfold listServices
    rw [mem_sortStrings]
    dsimp only
    rw [mem_mapKeys_mapSet]
    refine Or.inr ?_
    rw [mem_mapKeys_mapSet]
    exact Or.inl rfl

/-- Witness for C10: rotating a never-stored service on an empty store. -/
theorem claim_c10_witness :
    exStEmpty.masterKey = some exKey ∧ isBytes exKey ∧ knownService "github" ∧
    mapHas exStEmpty.cache "github" = false ∧
    goodRecord "github" [("token", FieldVal.vStr [9])] ∧
    validateCredentials "github" [("token", FieldVal.vStr [9])] = .ok () ∧
    ((rotateCredentials exStEmpty "github" [("token", FieldVal.vStr [9])] 7).1 = .ok () ∧
     mapLookup (rotateCredentials exStEmpty "github"
         [("token", FieldVal.vStr [9])] 7).2.cache ("github" ++ "_backup_" ++ toString 7) =
       some none ∧
     ("github" ++ "_backup_" ++ toString 7) ∈
       listServices (rotateCredentials exStEmpty "github" [("token", FieldVal.vStr [9])] 7).2) :=
  ⟨rfl, by decide, by decide, rfl, by decide, rfl,
    claim_c10_rotate_absent exStEmpty exKey "github" [("token", FieldVal.vStr [9])] 7
      rfl (by decide) (by decide) rfl (by decide) rfl⟩

/-! ## Claim C5: the machine-bound key wrap -/

theorem getD_take (l : List Nat) :
    ∀ (n j d : Nat), j < n → (l.take n).getD j d = l.getD j d := by
  induction l with
  | nil => intro n j d _; simp
  | cons a tl ih =>
    intro n j d h
    cases n with
    | zero => omega
    | succ m =>
      cases j with
      | zero => simp
      | succ i =>
        simp only [List.take_succ_cons, List.getD_cons_succ]
        exact ih m i d (by omega)

theorem xor_cancel3 (a b c : Nat) (h : (a ^^^ b) ^^^ c = a) : b = c := by
  have h1 : a ^^^ ((a ^^^ b) ^^^ c) = a ^^^ a := congrArg (fun x => a ^^^ x) h
  rw [Nat.xor_self, ← Nat.xor_assoc, ← Nat.xor_assoc, Nat.xor_self, Nat.zero_xor] at h1
  have h2 := congrArg (fun x => x ^^^ c) h1
  simp only [Nat.zero_xor] at h2
  rw [Nat.xor_assoc, Nat.xor_self, Nat.xor_zero] at h2
  exact h2

/-- Claim C5 counterexample: two different machine fingerprints that agree
on their first 16 bytes unwrap the same wrapped key file to the same
(correct) master key, so a different fingerprint does not always yield a
different key. -/
theorem claim_c5_counterexample :
    (List.replicate 32 0 : List Nat) ≠ List.replicate 16 0 ++ List.replicate 16 1 ∧
    decryptMasterKey (List.replicate 16 0 ++ List.replicate 16 1)
        (encryptMasterKey (List.replicate 32 0) (List.replicate 32 9) (List.replicate 32 5)) =
      List.replicate 32 5 ∧
    decryptMasterKey (List.replicate 32 0)
        (encryptMasterKey (List.replicate 32 0) (List.replicate 32 9) (List.replicate 32 5)) =
      List.replicate 32 5 := by
  refine ⟨by decide, by decide, by decide⟩

/-- Claim C5 (amended): unwrapping with the original fingerprint is the
identity (so two unwraps agree); unwrapping under a fingerprint that
differs somewhere in its first 16 bytes yields a different (wrong) key,
and no error is raised in any case (the operations are total); but only
the first 16 fingerprint bytes enter the keystream, so a fingerprint
agreeing on those yields the same key. -/
theorem claim_c5_machine_binding (fp1 fp2 salt key : List Nat)
    (hsalt : salt.length = 32) (hkey : key.length = 32)
    (hfp1 : fp1.length = 32) (hfp2 : fp2.length = 32) :
    decryptMasterKey fp1 (encryptMasterKey fp1 salt key) = key ∧
    (∀ j, j < 16 → fp1.getD j 0 ≠ fp2.getD j 0 →
      decryptMasterKey fp2 (encryptMasterKey fp1 salt key) ≠ key) ∧
    ((∀ i, i < 16 → fp1.getD i 0 = fp2.getD i 0) →
      decryptMasterKey fp2 (encryptMasterKey fp1 salt key) =
        decryptMasterKey fp1 (encryptMasterKey fp1 salt key)) := by
  have htake : ∀ x : List Nat, (salt ++ x).take 32 = salt := by
    intro x
    rw [← hsalt]
    exact List.take_left salt x
  have hdrop : ∀ x : List Nat, (salt ++ x).drop 32 = x := by
    intro x
    rw [← hsalt]
    exact List.drop_left salt x
  have hcomblen : ∀ fp : List Nat, fp.length = 32 →
      (fp.take 16 ++ salt.take 16).length = 32 := by
    intro fp hfp
    rw [List.length_append, List.length_take, List.length_take, hfp, hsalt]
    decide
  have hkeyAt : ∀ (fp : List Nat), fp.length = 32 → ∀ j, j < 16 →
      keyAt (fp.take 16 ++ salt.take 16) j = fp.getD j 0 := by
    intro fp hfp j hj
    unfold keyAt
    rw [hcomblen fp hfp]
    rw [Nat.mod_eq_of_lt (by omega)]
    have hjlt : j < (fp.take 16).length := by
      rw [List.length_take, hfp]
      omega
    rw [List.getD_append _ _ _ _ hjlt]
    exact getD_take fp 16 j 0 hj
  have hid : decryptMasterKey fp1 (encryptMasterKey fp1 salt key) = key := by
    unfold decryptMasterKey encryptMasterKey
    dsimp only
    rw [htake, hdrop]
    exact xorStream_xorStream _ 0 key
  refine ⟨hid, ?_, ?_⟩
  · intro j hj hne hc
    unfold decryptMasterKey encryptMasterKey at hc
    dsimp only at hc
    rw [htake, hdrop] at hc
    have henclen : (xorStream (fp1.take 16 ++ salt.take 16) 0 key).length = 32 := by
      rw [xorStream_length, hkey]
    have hgd := congrArg (fun l : List Nat => l.getD j 0) hc
    dsimp only at hgd
    rw [xorStream_getD _ _ 0 j (by omega)] at hgd
    rw [xorStream_getD _ _ 0 j (by omega)] at hgd
    rw [Nat.zero_add] at hgd
    rw [hkeyAt fp1 hfp1 j hj, hkeyAt fp2 hfp2 j hj] at hgd
    exact hne (xor_cancel3 (key.getD j 0) _ _ hgd)
  · intro hagree
    have hpre : fp1.take 16 = fp2.take 16 := by
      apply List.ext_getElem
      · rw [List.length_take, List.length_take, hfp1, hfp2]
      · intro i h1 h2
        have hi : i < 16 := by
          rw [List.length_take, hfp1] at h1
          omega
        have e1 : (fp1.take 16).getD i 0 = (fp1.take 16)[i] :=
          List.getD_eq_getElem _ _ h1
        have e2 : (fp2.take 16).getD i 0 = (fp2.take 16)[i] :=
          List.getD_eq_getElem _ _ h2
        rw [← e1, ← e2, getD_take fp1 16 i 0 hi, getD_take fp2 16 i 0 hi]
        exact hagree i hi
    unfold decryptMasterKey encryptMasterKey
    dsimp only
    rw [hpre]

/-- Witness for the amended C5 at concrete fingerprints differing at byte 0. -/
theorem claim_c5_witness :
    (List.replicate 32 4 : List Nat).length = 32 ∧
    (List.replicate 32 9 : List Nat).length = 32 ∧
    (List.replicate 32 2 : List Nat).length = 32 ∧
    (3 :: List.replicate 31 2 : List Nat).length = 32 ∧
    (decryptMasterKey (List.replicate 32 2)
        (encryptMasterKey (List.replicate 32 2) (List.replicate 32 4) (List.replicate 32 9)) =
      List.replicate 32 9 ∧
    (∀ j, j < 16 → (List.replicate 32 2 : List Nat).getD j 0 ≠
        (3 :: List.replicate 31 2 : List Nat).getD j 0 →
      decryptMasterKey (3 :: List.replicate 31 2)
          (encryptMasterKey (List.replicate 32 2) (List.replicate 32 4) (List.replicate 32 9)) ≠
        List.replicate 32 9) ∧
    ((∀ i, i < 16 → (List.replicate 32 2 : List Nat).getD i 0 =
        (3 :: List.replicate 31 2 : List Nat).getD i 0) →
      decryptMasterKey (3 :: List.replicate 31 2)
          (encryptMasterKey (List.replicate 32 2) (List.replicate 32 4) (List.replicate 32 9)) =
        decryptMasterKey (List.replicate 32 2)
          (encryptMasterKey (List.replicate 32 2) (List.replicate 32 4) (List.replicate 32 9)))) :=
  ⟨by decide, by decide, by decide, by decide,
    claim_c5_machine_binding (List.replicate 32 2) (3 :: List.replicate 31 2)
      (List.replicate 32 4) (List.replicate 32 9) (by decide) (by decide) (by decide) (by decide)⟩

/-! ## Claim C8: plaintext leakage -/

/-- Claim C8 counterexample: with an all-zero master key (one of the keys
the claim quantifies over), storing the one-byte stripe secret `"Q"`
produces a persisted document that contains the plaintext byte `Q` as a
substring (inside the base64 text `UQ==`), so the universally quantified
no-leakage claim is false. -/
theorem claim_c8_counterexample :
    (setCredentials exStZeroKey "stripe" [("api_key", FieldVal.vStr [81])]).1 = .ok () ∧
    bytesInfix [81]
      ((setCredentials exStZeroKey "stripe" [("api_key", FieldVal.vStr [81])]).2.disk.getD []) := by
  constructor
  · rfl
  · have hm : (81 : Nat) ∈
        ((setCredentials exStZeroKey "stripe" [("api_key", FieldVal.vStr [81])]).2.disk.getD []) := by
      decide
    obtain ⟨s, t, hst⟩ := List.append_of_mem hm
    exact ⟨s, t, by rw [List.append_assoc]; exact hst.symm⟩

/-- Claim C8 (amended): for every master key, the sealed record stored and
persisted maps each truthy sensitive field to its base64 ciphertext — a
value that is never equal to the literal plaintext — so the document's
decrypted form never stores the plaintext under the sensitive field; the
outer XOR layer alone cannot guarantee byte-substring freedom for every
key. -/
theorem claim_c8_sealed_value_not_plaintext (k : List Nat) (service : String)
    (creds : Record) (f : String) (v : List Nat)
    (hsv : knownService service) (hgood : goodRecord service creds)
    (hf : f ∈ sensitiveFields service) (hv : objGet creds f = some (FieldVal.vStr v))
    (hvne : v ≠ []) :
    ∃ sealed, encryptSensitiveFields (some k) service creds = .ok sealed ∧
      objGet sealed f = some (FieldVal.vStr (b64encode (encrypt k v))) ∧
      b64encode (encrypt k v) ≠ v := by
  obtain ⟨hallow, hnd, hvals⟩ := hgood
  obtain ⟨hsnodup, hends, hreps, hpairs, hkeyallow, hallowends⟩ := sens_conditions service hsv
  have hkeysub : ∀ g ∈ recordKeys creds, g ∈ allowedFields service := by
    intro g hg
    rcases List.mem_map.mp hg with ⟨p, hp, rfl⟩
    exact hallow p hp
  have hkeyscond :
      ∀ f' ∈ sensitiveFields service, ∀ g ∈ recordKeys creds, g ≠ f' ++ "_encrypted" :=
    fun f' hf' g hg => hkeyallow f' hf' g (hkeysub g hg)
  have hvalscond : ∀ f' ∈ sensitiveFields service, ∀ v', objGet creds f' = some v' →
      ∃ s, v' = FieldVal.vStr s := by
    intro f' hf' v' hv'
    have hmem := objGet_mem creds f' v' hv'
    have hb := hvals (f', v') hmem
    cases v' with
    | vStr s => exact ⟨s, rfl⟩
    | vBool b => exact absurd hb (by simp [valBytes])
  have hesf := esfLoop_spec k (sensitiveFields service) creds hnd hsnodup hpairs
    hkeyscond hvalscond
  refine ⟨_, hesf, ?_, ?_⟩
  · have hftfs : f ∈ activeSens (sensitiveFields service) creds := by
      unfold activeSens
      refine List.mem_filter.mpr ⟨hf, ?_⟩
      rw [hv]
      simp [truthy, List.isEmpty_iff, hvne]
    have h1 : objGet (sealValsBy k (activeSens (sensitiveFields service) creds) creds) f =
        some (cipherOf k (FieldVal.vStr v)) := by
      rw [objGet_sealValsBy, hv]
      simp [hftfs]
    exact objGet_append_left _ _ _ _ h1
  · exact b64encode_ne_self (encrypt k v) v (xorStream_length k 0 v) hvne

/-- Witness for the amended C8 at a concrete key, service and record. -/
theorem claim_c8_witness :
    knownService "stripe" ∧ goodRecord "stripe" [("api_key", FieldVal.vStr [80])] ∧
    "api_key" ∈ sensitiveFields "stripe" ∧
    objGet [("api_key", FieldVal.vStr [80])] "api_key" = some (FieldVal.vStr [80]) ∧
    ([80] : List Nat) ≠ [] ∧
    (∃ sealed, encryptSensitiveFields (some exKey) "stripe"
        [("api_key", FieldVal.vStr [80])] = .ok sealed ∧
      objGet sealed "api_key" = some (FieldVal.vStr (b64encode (encrypt exKey [80]))) ∧
      b64encode (encrypt exKey [80]) ≠ [80]) :=
  ⟨by decide, by decide, by decide, rfl, by decide,
    claim_c8_sealed_value_not_plaintext exKey "stripe" [("api_key", FieldVal.vStr [80])]
      "api_key" [80] (by decide) (by decide) (by decide) rfl (by decide)⟩

/-! ## Claim C1: cleanup -/

/-- Claim C1, evaluated at the failing input: a store holding a live
record, a stale backup and a fresh backup.  `cleanup` clears the whole
in-memory cache before its retention loop ever runs and nulls the master
key, so the subsequent save throws (and is swallowed): the result keeps
nothing in memory — the live record and the fresh backup included — and
leaves the old document on disk instead of persisting a pruned store. -/
theorem claim_c1_cleanup_wipes_store :
    mapHas exStCleanup.cache "github" = true ∧
    mapHas exStCleanup.cache "github_backup_9999999999999" = true ∧
    exStCleanup.disk = some [1, 2, 3] ∧
    cleanup exStCleanup 10000000000000 = ⟨[], none, some [1, 2, 3]⟩ :=
  ⟨rfl, rfl, rfl, rfl⟩
